import Mathlib

/-!
Verification of the text-extraction engine of `auto_claim.py`.

The Python functions `clean_text`, `parse_activity_details`,
`parse_calendar_activities`, `parse_claim_result`, `parse_my_coupons` and
`get_today_activities` are shallowly embedded over `List Char` (Python `str`
is a sequence of Unicode code points).  Each regular expression of the source
is hand-compiled to a recursive matcher that follows the backtracking order
of Python's `re` engine (leftmost match; greedy `\s*` tried longest first;
lazy `(.+?)` tried shortest first; alternatives in written order).  `\s` and
`\d` are modelled by their ASCII parts (space, tab, newline, carriage return,
vertical tab, form feed, and the digits 0-9), and `str.strip()` by trimming
that same whitespace set.  `datetime(year, month, day)`, which raises
`ValueError` on an invalid day, is modelled by returning `Except.error`.
-/

/-- Whitespace class of Python's `\s` (ASCII part), also used by `str.strip()`. -/
def isWsB (c : Char) : Bool :=
  c == ' ' || c == '\t' || c == '\n' || c == '\r' || c == '\x0b' || c == '\x0c'

/-- `startsWithL p cs` : the character list `cs` begins with the pattern `p`. -/
def startsWithL : List Char → List Char → Bool
  | [], _ => true
  | _ :: _, [] => false
  | p :: ps, c :: cs => p == c && startsWithL ps cs

/-- `containsSub p cs` : `p` occurs as a contiguous substring of `cs`
(Python's `p in cs`). -/
def containsSub (p : List Char) : List Char → Bool
  | [] => p.isEmpty
  | c :: cs => startsWithL p (c :: cs) || containsSub p cs

/-- Drop a literal pattern from the front, or fail. -/
def dropLit (p : List Char) (cs : List Char) : Option (List Char) :=
  if startsWithL p cs then some (cs.drop p.length) else none

/-- Left trim of Python `str.strip()`. -/
def stripL (cs : List Char) : List Char := cs.dropWhile isWsB

/-- Right trim of Python `str.strip()`. -/
def stripR (cs : List Char) : List Char := (cs.reverse.dropWhile isWsB).reverse

/-- Python `str.strip()`. -/
def strip (cs : List Char) : List Char := stripR (stripL cs)

/-- Value of a non-empty ASCII digit run (Python `int`). -/
def natOfDigits (ds : List Char) : Nat :=
  ds.foldl (fun a c => 10 * a + (c.toNat - 48)) 0

/-! ## `clean_text`: the three `str.replace` passes, the blank-line collapse
`re.sub(r'\n\s*\n', '\n', text)`, and the final strip. -/

/-- `text.replace('\\n', '\n')` : left-to-right, non-overlapping. -/
def repl1 : List Char → List Char
  | [] => []
  | [c] => [c]
  | c :: d :: rest =>
    if c = '\\' ∧ d = 'n' then '\n' :: repl1 rest else c :: repl1 (d :: rest)

/-- `text.replace('\\\\', '')` : left-to-right, non-overlapping. -/
def repl2 : List Char → List Char
  | [] => []
  | [c] => [c]
  | c :: d :: rest =>
    if c = '\\' ∧ d = '\\' then repl2 rest else c :: repl2 (d :: rest)

/-- `text.replace('\\ ', ' ')` : left-to-right, non-overlapping. -/
def repl3 : List Char → List Char
  | [] => []
  | [c] => [c]
  | c :: d :: rest =>
    if c = '\\' ∧ d = ' ' then ' ' :: repl3 rest else c :: repl3 (d :: rest)

/-- Attempt of `\s*\n` right after a leading `'\n'`: greedy `\s*` tried
longest first, so the match ends at the last `'\n'` inside the maximal
whitespace run.  Returns the text after the consumed part. -/
def tryBlank : List Char → Option (List Char)
  | [] => none
  | c :: rest =>
    if isWsB c then
      match tryBlank rest with
      | some r => some r
      | none => if c = '\n' then some rest else none
    else none

theorem tryBlank_length : ∀ cs r, tryBlank cs = some r → r.length < cs.length := by
  intro cs
  induction cs with
  | nil => intro r h; simp [tryBlank] at h
  | cons c rest ih =>
    intro r h
    simp only [tryBlank] at h
    by_cases hw : isWsB c
    · rw [if_pos hw] at h
      cases htb : tryBlank rest with
      | some r2 =>
        rw [htb] at h
        have h2 : r2 = r := by injection h
        subst h2
        exact Nat.lt_trans (ih r2 htb) (Nat.lt_succ_self _)
      | none =>
        rw [htb] at h
        by_cases hn : c = '\n'
        · rw [if_pos hn] at h
          have h2 : rest = r := by injection h
          subst h2
          exact Nat.lt_succ_self _
        · rw [if_neg hn] at h; exact absurd h (by simp)
    · rw [if_neg hw] at h; exact absurd h (by simp)

/-- `re.sub(r'\n\s*\n', '\n', text)` : scan left to right; at each `'\n'`
try the greedy `\s*\n` continuation, replace the whole match by `'\n'`,
and continue after the replacement.  The characters a match consumed beyond
the leading `'\n'` are passed over with the skip counter (the continuation
returned by `tryBlank` is a suffix of the rest, so skipping that many
characters resumes exactly there); this keeps the recursion structural. -/
def subBlankGo : Nat → List Char → List Char
  | _ + 1, [] => []
  | skip + 1, _ :: rest => subBlankGo skip rest
  | 0, [] => []
  | 0, c :: rest =>
    if c = '\n' then
      match tryBlank rest with
      | some r => '\n' :: subBlankGo (rest.length - r.length) rest
      | none => '\n' :: subBlankGo 0 rest
    else c :: subBlankGo 0 rest

def subBlank (cs : List Char) : List Char := subBlankGo 0 cs

/-- `clean_text` of the source: unescape `\n`, delete `\\` pairs, unescape
`\ `, collapse blank lines, strip. -/
def clean_text (cs : List Char) : List Char :=
  if cs = [] then []
  else strip (subBlank (repl3 (repl2 (repl1 cs))))

/-! ## `parse_activity_details` -/

/-- An activity record `{title, content, img}`. -/
structure ActivityRecord where
  title : String
  content : String
  img : String
deriving DecidableEq, Repr

def actLabel : List Char := "**活动标题**".data
def introLabel : List Char := "**活动内容介绍**".data
def imgIntroLabel : List Char := "**活动图片介绍**".data

theorem startsWithL_le : ∀ p cs, startsWithL p cs = true → p.length ≤ cs.length := by
  intro p
  induction p with
  | nil => intro cs _; simp
  | cons a ps ih =>
    intro cs h
    cases cs with
    | nil => simp [startsWithL] at h
    | cons c rest =>
      simp only [startsWithL, Bool.and_eq_true] at h
      simpa using Nat.succ_le_succ (ih rest h.2)

theorem dropLit_eq : ∀ p cs r, dropLit p cs = some r →
    r = cs.drop p.length ∧ p.length ≤ cs.length := by
  intro p cs r h
  unfold dropLit at h
  by_cases hs : startsWithL p cs = true
  · rw [if_pos hs] at h
    have h2 : cs.drop p.length = r := by injection h
    exact ⟨h2.symm, startsWithL_le p cs hs⟩
  · rw [if_neg hs] at h; exact absurd h (by simp)

theorem dropLit_length_le : ∀ p cs r, dropLit p cs = some r → r.length ≤ cs.length := by
  intro p cs r h
  obtain ⟨h1, _⟩ := dropLit_eq p cs r h
  subst h1
  simp [List.length_drop]

theorem dropWhile_len_le (p : Char → Bool) : ∀ cs : List Char,
    (cs.dropWhile p).length ≤ cs.length := by
  intro cs
  induction cs with
  | nil => simp
  | cons c rest ih =>
    rw [List.dropWhile_cons]
    by_cases h : p c
    · simp only [h, if_true, List.length_cons]
      omega
    · simp [h]

/-- Literal pattern followed by the colon class `[：:]`. -/
def colonAfter (lit : List Char) (cs : List Char) : Option (List Char) :=
  match dropLit lit cs with
  | some (c :: r) => if c = '：' ∨ c = ':' then some r else none
  | _ => none

theorem colonAfter_length : ∀ lit cs r, colonAfter lit cs = some r →
    r.length < cs.length := by
  intro lit cs r h
  unfold colonAfter at h
  split at h
  next c r2 heq =>
    split at h
    · have h2 : r2 = r := by injection h
      subst h2
      have := dropLit_length_le _ _ _ heq
      simp only [List.length_cons] at this
      omega
    · exact absurd h (by simp)
  next => exact absurd h (by simp)

/-- `content.replace('\\\\n', '\n')`. -/
def replBBn : List Char → List Char
  | [] => []
  | [c] => [c]
  | [c, d] => [c, d]
  | c :: d :: e :: rest =>
    if c = '\\' ∧ d = '\\' ∧ e = 'n' then '\n' :: replBBn rest
    else c :: replBBn (d :: e :: rest)

/-- One match attempt of the split pattern `\n-\s*\*\*活动标题\*\*`;
returns the text after the match. -/
def markerAt : List Char → Option (List Char)
  | '\n' :: '-' :: rest => dropLit actLabel (rest.dropWhile isWsB)
  | _ => none

theorem markerAt_length : ∀ cs r, markerAt cs = some r → r.length < cs.length := by
  intro cs r h
  unfold markerAt at h
  split at h
  next rest =>
    have h1 := dropLit_length_le _ _ _ h
    have h2 : (rest.dropWhile isWsB).length ≤ rest.length :=
      dropWhile_len_le isWsB rest
    simp only [List.length_cons]
    omega
  next => exact absurd h (by simp)

/-- `re.split(r'\n-\s*\*\*活动标题\*\*', content)` : pieces between the
non-overlapping matches, scanned left to right (the skip counter passes
over the consumed characters of a match, as in `subBlankGo`). -/
def splitMarkerGo (acc : List Char) : Nat → List Char → List (List Char)
  | _ + 1, [] => [acc.reverse]
  | skip + 1, _ :: rest => splitMarkerGo acc skip rest
  | 0, [] => [acc.reverse]
  | 0, c :: rest =>
    match markerAt (c :: rest) with
    | some after => acc.reverse :: splitMarkerGo [] (rest.length - after.length) rest
    | none => splitMarkerGo (c :: acc) 0 rest

def splitMarker (acc : List Char) (cs : List Char) : List (List Char) :=
  splitMarkerGo acc 0 cs

/-- Lazy `(.+?)(?:\n|$)` : shortest non-empty run of non-newline characters
stopped at the first `'\n'` or at the end of the text; the capture. -/
def lazyTitle : List Char → Option (List Char)
  | [] => none
  | c :: rest =>
    if c = '\n' then none
    else
      match rest with
      | [] => some [c]
      | d :: _ =>
        if d = '\n' then some [c]
        else
          match lazyTitle rest with
          | some t => some (c :: t)
          | none => none

/-- Greedy `\s*` before `lazyTitle`: longest whitespace prefix tried first,
backtracking one character at a time. -/
def wsLazyTitle : List Char → Option (List Char)
  | [] => none
  | c :: rest =>
    if isWsB c then
      match wsLazyTitle rest with
      | some t => some t
      | none => lazyTitle (c :: rest)
    else lazyTitle (c :: rest)

/-- Anchored `^[：:]\s*(.+?)(?:\n|$)` (only tried at the start of the block). -/
def colonTitle : List Char → Option (List Char)
  | [] => none
  | c :: rest => if c = '：' ∨ c = ':' then wsLazyTitle rest else none

/-- Lazy `([\s\S]*?)` up to the first occurrence of `stop` (or all of the
text when `stop` never occurs): the lookahead `(?=...|$)`. -/
def captureUntil (stop : List Char) : List Char → List Char
  | [] => []
  | c :: rest =>
    if startsWithL stop (c :: rest) then [] else c :: captureUntil stop rest

/-- One match attempt (at the current position) of
`\*\*活动内容介绍\*\*[：:]\s*([\s\S]*?)(?=\*\*活动图片介绍\*\*|$)`. -/
def contentAt (cs : List Char) : Option (List Char) :=
  match colonAfter introLabel cs with
  | some r => some (captureUntil imgIntroLabel (r.dropWhile isWsB))
  | none => none

/-- `re.search` scan of the content pattern. -/
def contentSearch : List Char → Option (List Char)
  | [] => none
  | c :: rest =>
    match contentAt (c :: rest) with
    | some cap => some cap
    | none => contentSearch rest

def imgLit : List Char := "<img".data
def srcLit : List Char := "src=\"".data

/-- One match attempt of `<img\s+src="([^"]+)"`; returns the captured URL
and the text after the match. -/
def imgAt (cs : List Char) : Option (List Char × List Char) :=
  match dropLit imgLit cs with
  | none => none
  | some r1 =>
    if r1.takeWhile isWsB = [] then none
    else
      match dropLit srcLit (r1.dropWhile isWsB) with
      | none => none
      | some r3 =>
        if r3.takeWhile (· != '"') = [] then none
        else
          match r3.dropWhile (· != '"') with
          | '"' :: r5 => some (r3.takeWhile (· != '"'), r5)
          | _ => none

theorem imgAt_length : ∀ cs u r, imgAt cs = some (u, r) → r.length < cs.length := by
  intro cs u r h
  unfold imgAt at h
  split at h
  · exact absurd h (by simp)
  next r1 heq1 =>
    split at h
    · exact absurd h (by simp)
    next hw =>
      split at h
      · exact absurd h (by simp)
      next r3 heq2 =>
        split at h
        · exact absurd h (by simp)
        next hu =>
          split at h
          next r5 heq3 =>
            have h5 : r5 = r := by
              simp only [Option.some.injEq, Prod.mk.injEq] at h
              exact h.2
            subst h5
            have l1 := dropLit_length_le _ _ _ heq1
            have l2 : (r1.dropWhile isWsB).length ≤ r1.length :=
              dropWhile_len_le isWsB r1
            have l3 := dropLit_length_le _ _ _ heq2
            have l4 : (r3.dropWhile (· != '"')).length ≤ r3.length :=
              dropWhile_len_le (· != '"') r3
            have l5 : r5.length < (r3.dropWhile (· != '"')).length := by
              rw [heq3]; simp
            omega
          next => exact absurd h (by simp)

/-- `re.finditer` scan of `<img\s+src="([^"]+)"` : list of captured URLs,
continuing after each match (skip counter as in `subBlankGo`). -/
def findImgsGo : Nat → List Char → List (List Char)
  | _ + 1, [] => []
  | skip + 1, _ :: rest => findImgsGo skip rest
  | 0, [] => []
  | 0, c :: rest =>
    match imgAt (c :: rest) with
    | some (u, after) => u :: findImgsGo (rest.length - after.length) rest
    | none => findImgsGo 0 rest

def findImgs (cs : List Char) : List (List Char) := findImgsGo 0 cs

/-- `re.search` of the image pattern: the first match's capture. -/
def imgSearch : List Char → Option (List Char)
  | [] => none
  | c :: rest =>
    match imgAt (c :: rest) with
    | some (u, _) => some u
    | none => imgSearch rest

/-- Lazy `(.+?)(?:\n|\\n|$)` of the fallback title pattern: shortest
non-empty non-newline run, stopped at `'\n'`, at a literal `\n` escape or
at the end; returns the capture and the text after the whole match. -/
def lazyT2 : List Char → Option (List Char × List Char)
  | [] => none
  | c :: rest =>
    if c = '\n' then none
    else
      match rest with
      | [] => some ([c], [])
      | '\n' :: r => some ([c], r)
      | '\\' :: 'n' :: r => some ([c], r)
      | _ =>
        match lazyT2 rest with
        | some (cap, r) => some (c :: cap, r)
        | none => none

/-- Greedy `\s*` before `lazyT2`, longest run tried first. -/
def wsLazyT2 : List Char → Option (List Char × List Char)
  | [] => none
  | c :: rest =>
    if isWsB c then
      match wsLazyT2 rest with
      | some x => some x
      | none => lazyT2 (c :: rest)
    else lazyT2 (c :: rest)

theorem lazyT2_length : ∀ cs cap r, lazyT2 cs = some (cap, r) → r.length < cs.length := by
  intro cs
  induction cs with
  | nil => intro cap r h; simp [lazyT2] at h
  | cons c rest ih =>
    intro cap r h
    unfold lazyT2 at h
    split at h
    · exact absurd h (by simp)
    · split at h
      · simp only [Option.some.injEq, Prod.mk.injEq] at h
        rw [← h.2]
        simp
      next r2 =>
        simp only [Option.some.injEq, Prod.mk.injEq] at h
        rw [← h.2]
        simp only [List.length_cons]
        omega
      next r2 =>
        simp only [Option.some.injEq, Prod.mk.injEq] at h
        rw [← h.2]
        simp only [List.length_cons]
        omega
      · split at h
        next cap2 r2 heq =>
          simp only [Option.some.injEq, Prod.mk.injEq] at h
          rw [← h.2]
          exact Nat.lt_trans (ih cap2 r2 heq) (Nat.lt_succ_self _)
        next => exact absurd h (by simp)

theorem wsLazyT2_length : ∀ cs cap r, wsLazyT2 cs = some (cap, r) → r.length < cs.length := by
  intro cs
  induction cs with
  | nil => intro cap r h; simp [wsLazyT2] at h
  | cons c rest ih =>
    intro cap r h
    unfold wsLazyT2 at h
    split at h
    · split at h
      next x heq =>
        obtain ⟨cap2, r2⟩ := x
        have h2 := ih cap2 r2 heq
        simp only [Option.some.injEq, Prod.mk.injEq] at h
        rw [← h.2]
        exact Nat.lt_trans h2 (Nat.lt_succ_self _)
      next => exact lazyT2_length _ _ _ h
    · exact lazyT2_length _ _ _ h

/-- One match attempt of the fallback title pattern
`\*\*活动标题\*\*[：:]\s*(.+?)(?:\n|\\n|$)`. -/
def titleLabelAt (cs : List Char) : Option (List Char × List Char) :=
  match colonAfter actLabel cs with
  | some r => wsLazyT2 r
  | none => none

theorem titleLabelAt_length : ∀ cs cap r, titleLabelAt cs = some (cap, r) →
    r.length < cs.length := by
  intro cs cap r h
  unfold titleLabelAt at h
  split at h
  next r1 heq =>
    exact Nat.lt_trans (wsLazyT2_length _ _ _ h) (colonAfter_length _ _ _ heq)
  next => exact absurd h (by simp)

/-- `re.finditer` of the fallback title pattern: captures in order
(skip counter as in `subBlankGo`). -/
def findTitlesGo : Nat → List Char → List (List Char)
  | _ + 1, [] => []
  | skip + 1, _ :: rest => findTitlesGo skip rest
  | 0, [] => []
  | 0, c :: rest =>
    match titleLabelAt (c :: rest) with
    | some (cap, after) => cap :: findTitlesGo (rest.length - after.length) rest
    | none => findTitlesGo 0 rest

def findTitles (cs : List Char) : List (List Char) := findTitlesGo 0 cs

/-- Title of a block: anchored `^[：:]\s*(.+?)(?:\n|$)` first, then the
plain `^\s*(.+?)(?:\n|$)` fallback; `.strip()` the capture, `clean_text`. -/
def blockTitle (block : List Char) : List Char :=
  clean_text
    (match colonTitle block with
     | some t => strip t
     | none =>
       match wsLazyTitle block with
       | some t => strip t
       | none => [])

/-- Content introduction of a block: `.strip()`, `clean_text`. -/
def blockIntro (block : List Char) : List Char :=
  match contentSearch block with
  | some c => clean_text (strip c)
  | none => []

/-- Truncation `intro[:300] + "..."` when longer than 300 characters. -/
def truncIntro (l : List Char) : List Char :=
  if 300 < l.length then l.take 300 ++ "...".data else l

/-- Field extraction of one activity block; `none` when the title is empty. -/
def extractBlock (block : List Char) : Option ActivityRecord :=
  if blockTitle block = [] then none
  else
    some
      { title := String.mk (blockTitle block)
        content := String.mk (truncIntro (blockIntro block))
        img := String.mk ((imgSearch block).getD []) }

/-- Per-block logic of the loop, with the special case of the first split
block: a first block not containing the title label is discarded unless its
stripped form starts with the label (then the label is dropped first). -/
def procBlock (isFirst : Bool) (block : List Char) : Option ActivityRecord :=
  if strip block = [] then none
  else if isFirst ∧ containsSub actLabel block = false then
    if startsWithL actLabel (strip block) then
      extractBlock ((strip block).drop actLabel.length)
    else none
  else extractBlock block

/-- The primary strategy: process the split blocks in order, index 0 first. -/
def processBlocks : List (List Char) → List ActivityRecord
  | [] => []
  | b :: rest => (procBlock true b).toList ++ rest.filterMap (procBlock false)

/-- Fallback pairing: the n-th title with the n-th image; the index advances
even when a title cleans to empty and is skipped. -/
def pairTitles (imgs : List (List Char)) : Nat → List (List Char) → List ActivityRecord
  | _, [] => []
  | idx, t :: ts =>
    if clean_text (strip t) = [] then pairTitles imgs (idx + 1) ts
    else
      ⟨String.mk (clean_text (strip t)), "", String.mk (imgs.getD idx [])⟩ ::
        pairTitles imgs (idx + 1) ts

/-- `parse_activity_details` of the source. -/
def parse_activity_details (content0 : List Char) : List ActivityRecord :=
  let content := replBBn (repl1 content0)
  let primary := processBlocks (splitMarker [] content)
  if primary = [] then pairTitles (findImgs content) 0 (findTitles content)
  else primary

/-! ## `parse_claim_result` -/

/-- The claim result `{success, failed, coupons, message}`. -/
structure ClaimResult where
  success : Nat
  failed : Nat
  coupons : List String
  message : String
deriving DecidableEq, Repr

def noCouponsA : List Char := "领券失败".data
def noCouponsB : List Char := "暂无可领取".data
def noCouponsMsg : String := "暂无可领取的优惠券"

/-- Lazy `(.+?)` of `\*\*(.+?)\*\*`: shortest non-empty non-newline run up
to a closing `**`; capture and text after the closing. -/
def lazyBold : List Char → Option (List Char × List Char)
  | [] => none
  | c :: rest =>
    if c = '\n' then none
    else if startsWithL ['*', '*'] rest then some ([c], rest.drop 2)
    else
      match lazyBold rest with
      | some (cap, r) => some (c :: cap, r)
      | none => none

/-- One match attempt of `\*\*(.+?)\*\*`. -/
def boldAt : List Char → Option (List Char × List Char)
  | '*' :: '*' :: rest => lazyBold rest
  | _ => none

theorem lazyBold_length : ∀ cs cap r, lazyBold cs = some (cap, r) →
    r.length < cs.length := by
  intro cs
  induction cs with
  | nil => intro cap r h; simp [lazyBold] at h
  | cons c rest ih =>
    intro cap r h
    unfold lazyBold at h
    split at h
    · exact absurd h (by simp)
    · split at h
      · simp only [Option.some.injEq, Prod.mk.injEq] at h
        rw [← h.2]
        have : (rest.drop 2).length ≤ rest.length := by
          simp [List.length_drop]
        simp only [List.length_cons]
        omega
      · split at h
        next cap2 r2 heq =>
          simp only [Option.some.injEq, Prod.mk.injEq] at h
          rw [← h.2]
          exact Nat.lt_trans (ih cap2 r2 heq) (Nat.lt_succ_self _)
        next => exact absurd h (by simp)

theorem boldAt_length : ∀ cs cap r, boldAt cs = some (cap, r) →
    r.length < cs.length := by
  intro cs cap r h
  unfold boldAt at h
  split at h
  next rest =>
    have := lazyBold_length _ _ _ h
    simp only [List.length_cons]
    omega
  next => exact absurd h (by simp)

/-- `re.findall(r'\*\*(.+?)\*\*', text)` : captures of the non-overlapping
matches, scanned left to right (skip counter as in `subBlankGo`). -/
def findBoldGo : Nat → List Char → List (List Char)
  | _ + 1, [] => []
  | skip + 1, _ :: rest => findBoldGo skip rest
  | 0, [] => []
  | 0, c :: rest =>
    match boldAt (c :: rest) with
    | some (cap, after) => cap :: findBoldGo (rest.length - after.length) rest
    | none => findBoldGo 0 rest

def findBold (cs : List Char) : List (List Char) := findBoldGo 0 cs

/-- `\s*(\d+)` after the colon: skip whitespace, read a digit run. -/
def numTail (cs : List Char) : Option Nat :=
  if (cs.dropWhile isWsB).takeWhile Char.isDigit = [] then none
  else some (natOfDigits ((cs.dropWhile isWsB).takeWhile Char.isDigit))

/-- One match attempt of `<label>[：:]\s*(\d+)`. -/
def labelNumAt (label : List Char) (cs : List Char) : Option Nat :=
  match colonAfter label cs with
  | some r => numTail r
  | none => none

/-- `re.search` of the count pattern: value of the first match. -/
def searchLabelNum (label : List Char) : List Char → Option Nat
  | [] => none
  | c :: rest =>
    match labelNumAt label (c :: rest) with
    | some n => some n
    | none => searchLabelNum label rest

/-- `parse_claim_result` of the source. -/
def parse_claim_result (text : List Char) : ClaimResult :=
  if text = [] then ⟨0, 0, [], ""⟩
  else if containsSub noCouponsA text || containsSub noCouponsB text then
    ⟨0, 0, [], noCouponsMsg⟩
  else
    { success := (searchLabelNum "成功".data text).getD 0
      failed := (searchLabelNum "失败".data text).getD 0
      coupons :=
        if findBold text = [] then []
        else ((findBold text).take ((searchLabelNum "成功".data text).getD 0)).map String.mk
      message := "" }

/-! ## `parse_my_coupons` -/

/-- A coupon record `{title, price, validity, img}`. -/
structure CouponRecord where
  title : String
  price : String
  validity : String
  img : String
deriving DecidableEq, Repr

def priceLabel : List Char := "**优惠**".data
def validityLabel : List Char := "**有效期**".data

/-- Rest of the split lookahead `(?=##\s+[^\n]+)` after `##` and one
whitespace character: `\s*[^\n]` reachable, i.e. some non-`'\n'` character
preceded only by `'\n'`s. -/
def lookTail : List Char → Bool
  | [] => false
  | c :: rest => if c = '\n' then lookTail rest else true

/-- The lookahead `##\s+[^\n]+` holds at this position. -/
def lookAt : List Char → Bool
  | '#' :: '#' :: c :: rest => isWsB c && lookTail rest
  | _ => false

/-- `re.split(r'(?=##\s+[^\n]+)', text)` : a boundary before every position
where the zero-width lookahead matches. -/
def goSplit (acc : List Char) : List Char → List (List Char)
  | [] => [acc.reverse]
  | c :: rest =>
    if lookAt (c :: rest) then acc.reverse :: goSplit [c] rest
    else goSplit (c :: acc) rest

def splitSections (cs : List Char) : List (List Char) := goSplit [] cs

/-- Lazy `(.+?)[\n\r]` : shortest non-empty non-`'\n'` run whose next
character is `'\n'` or `'\r'` (no end-of-text alternative here). -/
def lazyNl : List Char → Option (List Char)
  | [] => none
  | c :: rest =>
    if c = '\n' then none
    else
      match rest with
      | [] => none
      | d :: _ =>
        if d = '\n' ∨ d = '\r' then some [c]
        else
          match lazyNl rest with
          | some t => some (c :: t)
          | none => none

/-- Greedy `\s*` before `lazyNl`, longest run tried first. -/
def wsLazyNl : List Char → Option (List Char)
  | [] => none
  | c :: rest =>
    if isWsB c then
      match wsLazyNl rest with
      | some t => some t
      | none => lazyNl (c :: rest)
    else lazyNl (c :: rest)

/-- One match attempt of `##\s*(.+?)[\n\r]`. -/
def h2At : List Char → Option (List Char)
  | '#' :: '#' :: rest => wsLazyNl rest
  | _ => none

/-- `re.search` of the section-title pattern. -/
def h2Search : List Char → Option (List Char)
  | [] => none
  | c :: rest =>
    match h2At (c :: rest) with
    | some t => some t
    | none => h2Search rest

/-- `(\d+(?:\.\d+)?)` : integer part, then an optional fraction. -/
def priceDigits (cs : List Char) : Option (List Char) :=
  if cs.takeWhile Char.isDigit = [] then none
  else
    match cs.dropWhile Char.isDigit with
    | '.' :: r2 =>
      if r2.takeWhile Char.isDigit = [] then some (cs.takeWhile Char.isDigit)
      else some (cs.takeWhile Char.isDigit ++ '.' :: r2.takeWhile Char.isDigit)
    | _ => some (cs.takeWhile Char.isDigit)

/-- `\s*¥?(\d+(?:\.\d+)?)` after the colon. -/
def priceTail (cs : List Char) : Option (List Char) :=
  match cs.dropWhile isWsB with
  | '¥' :: r => priceDigits r
  | r => priceDigits r

/-- One match attempt of `\*\*优惠\*\*[：:]\s*¥?(\d+(?:\.\d+)?)`. -/
def priceAt (cs : List Char) : Option (List Char) :=
  match colonAfter priceLabel cs with
  | some r => priceTail r
  | none => none

/-- `re.search` of the price pattern. -/
def priceSearch : List Char → Option (List Char)
  | [] => none
  | c :: rest =>
    match priceAt (c :: rest) with
    | some p => some p
    | none => priceSearch rest

/-- `\s*([^\n]+)` after the colon: greedy `\s*` tried longest first, then a
greedy non-empty non-`'\n'` run. -/
def valTail : List Char → Option (List Char)
  | [] => none
  | c :: rest =>
    if isWsB c then
      match valTail rest with
      | some t => some t
      | none =>
        if c = '\n' then none else some ((c :: rest).takeWhile (· != '\n'))
    else some ((c :: rest).takeWhile (· != '\n'))

/-- One match attempt of `\*\*有效期\*\*[：:]\s*([^\n]+)`. -/
def validityAt (cs : List Char) : Option (List Char) :=
  match colonAfter validityLabel cs with
  | some r => valTail r
  | none => none

/-- `re.search` of the validity pattern. -/
def validitySearch : List Char → Option (List Char)
  | [] => none
  | c :: rest =>
    match validityAt (c :: rest) with
    | some v => some v
    | none => validitySearch rest

/-- Per-section logic of the loop in `parse_my_coupons`. -/
def parseSection (sec : List Char) : Option CouponRecord :=
  if strip sec = [] then none
  else
    match h2Search sec with
    | none => none
    | some cap =>
      some
        { title := String.mk (strip cap)
          price :=
            match priceSearch sec with
            | some p => String.mk (strip p)
            | none => "0"
          validity :=
            match validitySearch sec with
            | some v => String.mk (strip v)
            | none => "未知"
          img := String.mk ((imgSearch sec).getD []) }

/-- `parse_my_coupons` of the source. -/
def parse_my_coupons (text : List Char) : List CouponRecord :=
  if text = [] then []
  else (splitSections text).filterMap parseSection

/-! ## `parse_calendar_activities` -/

/-- A per-day record `{date, count, activities}`. -/
structure DayActivities where
  date : String
  count : Nat
  activities : List ActivityRecord
deriving DecidableEq, Repr

/-- The reference date (`server_date` parsed by `strptime("%Y-%m-%d")`, or
the local date). -/
structure RefDate where
  year : Nat
  month : Nat
  day : Nat
deriving DecidableEq, Repr

/-- One match of the date-header pattern, with its span in the text. -/
structure DateMatch where
  start : Nat
  stop : Nat
  yr : Option Nat
  mo : Nat
  dy : Nat
deriving DecidableEq, Repr

/-- `(\d+)日` : day digits and the literal. -/
def dayTail (cs : List Char) : Option (Nat × List Char) :=
  if cs.takeWhile Char.isDigit = [] then none
  else
    match cs.dropWhile Char.isDigit with
    | '日' :: r => some (natOfDigits (cs.takeWhile Char.isDigit), r)
    | _ => none

/-- `(\d+)月(\d+)日` with an already-resolved optional year group. -/
def monthDay (yr : Option Nat) (cs : List Char) : Option (Option Nat × Nat × Nat × List Char) :=
  if cs.takeWhile Char.isDigit = [] then none
  else
    match cs.dropWhile Char.isDigit with
    | '月' :: r =>
      match dayTail r with
      | some (d, r2) => some (yr, natOfDigits (cs.takeWhile Char.isDigit), d, r2)
      | none => none
    | _ => none

/-- `\s*(?:(\d+)年)?(\d+)月(\d+)日` : whitespace skip, then a digit run
committed to the year group when followed by `'年'` (the no-year
alternative needs the same run followed by `'月'`, so no real backtracking). -/
def dateTail (cs : List Char) : Option (Option Nat × Nat × Nat × List Char) :=
  if (cs.dropWhile isWsB).takeWhile Char.isDigit = [] then none
  else
    match (cs.dropWhile isWsB).dropWhile Char.isDigit with
    | '年' :: r =>
      monthDay (some (natOfDigits ((cs.dropWhile isWsB).takeWhile Char.isDigit))) r
    | '月' :: r =>
      match dayTail r with
      | some (d, r2) =>
        some (none, natOfDigits ((cs.dropWhile isWsB).takeWhile Char.isDigit), d, r2)
      | none => none
    | _ => none

/-- One match attempt of `####?\s*(?:(\d+)年)?(\d+)月(\d+)日` : four hash
marks tried first (greedy `#?`), then three. -/
def matchDateAt : List Char → Option (Option Nat × Nat × Nat × List Char)
  | '#' :: '#' :: '#' :: '#' :: rest =>
    match dateTail rest with
    | some x => some x
    | none => dateTail ('#' :: rest)
  | '#' :: '#' :: '#' :: rest => dateTail rest
  | _ => none

theorem dayTail_length : ∀ cs d r, dayTail cs = some (d, r) → r.length < cs.length := by
  intro cs d r h
  unfold dayTail at h
  split at h
  · exact absurd h (by simp)
  next hne =>
    split at h
    next r2 heq =>
      simp only [Option.some.injEq, Prod.mk.injEq] at h
      rw [← h.2]
      have h1 : (cs.dropWhile Char.isDigit).length ≤ cs.length :=
        dropWhile_len_le Char.isDigit cs
      have h2 : ('日' :: r2 : List Char).length = r2.length + 1 := by simp
      rw [heq] at h1
      simp only [List.length_cons] at h1
      -- strictness: the digit run is non-empty
      have h3 : cs.takeWhile Char.isDigit ++ cs.dropWhile Char.isDigit = cs :=
        cs.takeWhile_append_dropWhile Char.isDigit
      have h4 := congrArg List.length h3
      simp only [List.length_append] at h4
      have h5 : (cs.takeWhile Char.isDigit).length ≠ 0 := by
        intro h0
        exact hne (List.eq_nil_of_length_eq_zero h0)
      rw [heq] at h4
      simp only [List.length_cons] at h4
      omega
    next => exact absurd h (by simp)

theorem monthDay_length : ∀ yr cs y m d r, monthDay yr cs = some (y, m, d, r) →
    r.length < cs.length := by
  intro yr cs y m d r h
  unfold monthDay at h
  split at h
  · exact absurd h (by simp)
  next hne =>
    split at h
    next r1 heq =>
      split at h
      next d2 r2 heq2 =>
        simp only [Option.some.injEq, Prod.mk.injEq] at h
        have hr : r2 = r := h.2.2.2
        subst hr
        have h1 := dayTail_length _ _ _ heq2
        have h2 : (cs.dropWhile Char.isDigit).length ≤ cs.length :=
          dropWhile_len_le Char.isDigit cs
        rw [heq] at h2
        simp only [List.length_cons] at h2
        omega
      next => exact absurd h (by simp)
    next => exact absurd h (by simp)

theorem dateTail_length : ∀ cs y m d r, dateTail cs = some (y, m, d, r) →
    r.length < cs.length := by
  intro cs y m d r h
  unfold dateTail at h
  split at h
  · exact absurd h (by simp)
  next hne =>
    have hw : (cs.dropWhile isWsB).length ≤ cs.length := dropWhile_len_le isWsB cs
    have hd : ((cs.dropWhile isWsB).dropWhile Char.isDigit).length ≤
        (cs.dropWhile isWsB).length := dropWhile_len_le Char.isDigit _
    split at h
    next r1 heq =>
      have h1 := monthDay_length _ _ _ _ _ _ h
      rw [heq] at hd
      simp only [List.length_cons] at hd
      omega
    next r1 heq =>
      split at h
      next d2 r2 heq2 =>
        simp only [Option.some.injEq, Prod.mk.injEq] at h
        have hr : r2 = r := h.2.2.2
        subst hr
        have h1 := dayTail_length _ _ _ heq2
        rw [heq] at hd
        simp only [List.length_cons] at hd
        omega
      next => exact absurd h (by simp)
    next => exact absurd h (by simp)

theorem matchDateAt_length : ∀ cs y m d r, matchDateAt cs = some (y, m, d, r) →
    r.length < cs.length := by
  intro cs y m d r h
  unfold matchDateAt at h
  split at h
  next rest =>
    split at h
    next x heq =>
      obtain ⟨y2, m2, d2, r2⟩ := x
      have h1 := dateTail_length _ _ _ _ _ heq
      simp only [Option.some.injEq, Prod.mk.injEq] at h
      obtain ⟨-, -, -, hr⟩ := h
      subst hr
      simp only [List.length_cons]
      omega
    next =>
      have h1 := dateTail_length _ _ _ _ _ h
      simp only [List.length_cons] at h1 ⊢
      omega
  next rest =>
    have h1 := dateTail_length _ _ _ _ _ h
    simp only [List.length_cons]
    omega
  next => exact absurd h (by simp)

/-- `re.finditer` of the date-header pattern with absolute positions,
continuing after each match (skip counter as in `subBlankGo`). -/
def findDatesGo (pos : Nat) : Nat → List Char → List DateMatch
  | _ + 1, [] => []
  | skip + 1, _ :: rest => findDatesGo pos skip rest
  | 0, [] => []
  | 0, c :: rest =>
    match matchDateAt (c :: rest) with
    | some (y, m, d, after) =>
      ⟨pos, pos + ((c :: rest).length - after.length), y, m, d⟩ ::
        findDatesGo (pos + ((c :: rest).length - after.length))
          (rest.length - after.length) rest
    | none => findDatesGo (pos + 1) 0 rest

def findDates (pos : Nat) (cs : List Char) : List DateMatch := findDatesGo pos 0 cs

def isLeapYear (y : Nat) : Bool :=
  (y % 4 == 0 && y % 100 != 0) || y % 400 == 0

def daysInMonth (y m : Nat) : Nat :=
  if m = 2 then (if isLeapYear y then 29 else 28)
  else if m = 4 ∨ m = 6 ∨ m = 9 ∨ m = 11 then 30
  else 31

/-- Validity domain of Python `datetime(year, month, day)`; outside it the
constructor raises `ValueError`. -/
def dateOk (y m d : Nat) : Bool :=
  decide (1 ≤ y) && decide (y ≤ 9999) && decide (1 ≤ m) && decide (m ≤ 12) &&
    decide (1 ≤ d) && decide (d ≤ daysInMonth y m)

/-- Lexicographic comparison of two `datetime`s at midnight. -/
def tripLt : Nat × Nat × Nat → Nat × Nat × Nat → Bool
  | (y1, m1, d1), (y2, m2, d2) =>
    decide (y1 < y2) ||
      (decide (y1 = y2) &&
        (decide (m1 < m2) || (decide (m1 = m2) && decide (d1 < d2))))

/-- `f"{year}-{month:02d}-{day:02d}"`. -/
def pad2 (n : Nat) : String := if n < 10 then "0" ++ toString n else toString n

def fmtDate (y m d : Nat) : String :=
  toString y ++ "-" ++ pad2 m ++ "-" ++ pad2 d

/-- `text[start_pos:end_pos].strip()`. -/
def dayContent (text : List Char) (stop nextPos : Nat) : List Char :=
  strip ((text.drop stop).take (nextPos - stop))

/-- `matches[i + 1].start() if i + 1 < len(matches) else len(text)`. -/
def nextStart (text : List Char) : List DateMatch → Nat
  | m2 :: _ => m2.start
  | [] => text.length

/-- The loop of `parse_calendar_activities` over the date-header matches;
an invalid day of a month/year-retained header raises (`Except.error`). -/
def procMatches (text : List Char) (ref : RefDate) :
    List DateMatch → Except Unit (List DayActivities)
  | [] => .ok []
  | m :: rest =>
    if m.mo ≠ ref.month ∨ m.yr.getD ref.year ≠ ref.year then procMatches text ref rest
    else if ¬ dateOk (m.yr.getD ref.year) m.mo m.dy then .error ()
    else if tripLt (m.yr.getD ref.year, m.mo, m.dy) (ref.year, ref.month, ref.day) then
      procMatches text ref rest
    else
      match procMatches text ref rest with
      | .error e => .error e
      | .ok tail =>
        if parse_activity_details (dayContent text m.stop (nextStart text rest)) = [] then
          .ok tail
        else
          .ok
            (⟨fmtDate (m.yr.getD ref.year) m.mo m.dy,
              (parse_activity_details (dayContent text m.stop (nextStart text rest))).length,
              parse_activity_details (dayContent text m.stop (nextStart text rest))⟩ :: tail)

/-- `parse_calendar_activities` of the source (the reference date stands for
the parsed `server_date`, or the local date). -/
def parse_calendar_activities (text : List Char) (ref : RefDate) :
    Except Unit (List DayActivities) :=
  if text = [] then .ok []
  else procMatches text ref (findDates 0 text)

/-! ## `get_today_activities` -/

/-- `get_today_activities` of the source: first record whose `date` equals
today's formatted date, else `None`. -/
def get_today_activities (today : String) : List DayActivities → Option DayActivities
  | [] => none
  | d :: rest => if d.date = today then some d else get_today_activities today rest

/-! ## Claim theorems -/

/-- Claim C1 (code bug): `parse_calendar_activities` does *not* return
normally on every input — a date header whose day does not exist in the
reference month (here day 32 of January 2026) reaches
`datetime(year, month, day)` after passing the month/year filter, and the
constructor raises `ValueError` (modelled as `Except.error`) instead of the
header being skipped silently. -/
theorem c1_day32_raises :
    parse_calendar_activities "#### 2026年1月32日".data ⟨2026, 1, 17⟩ =
      Except.error () := rfl

/-- Claim C2 (code bug): in `parse_activity_details`, a first split block
that does not contain the activity-title label is discarded (first
conjunct), but a first block that *starts* with the label never has the
label stripped: the stripping branch is nested under the label-absent test
and is unreachable, so the emitted title still carries the label (second
conjunct), contrary to the claim. -/
theorem c2_block0_label_kept :
    parse_activity_details "前言\n".data = [] ∧
    parse_activity_details "**活动标题**：测试活动\n".data =
      [⟨"**活动标题**：测试活动", "", ""⟩] :=
  ⟨rfl, rfl⟩

theorem containsSub_nil_ne (a : Char) (p : List Char) :
    containsSub (a :: p) [] = false := rfl

/-- Claim C4: any text containing one of the two "nothing available"
phrases short-circuits to the fixed no-coupons result, and every result
with a non-empty message has zero counts and no coupons. -/
theorem c4_no_coupons_shortcircuit :
    (∀ text : List Char,
      containsSub noCouponsA text = true ∨ containsSub noCouponsB text = true →
      parse_claim_result text = ⟨0, 0, [], noCouponsMsg⟩) ∧
    (∀ text : List Char, (parse_claim_result text).message ≠ "" →
      (parse_claim_result text).success = 0 ∧ (parse_claim_result text).failed = 0 ∧
        (parse_claim_result text).coupons = []) := by
  constructor
  · intro text h
    unfold parse_claim_result
    by_cases h0 : text = []
    · subst h0
      rcases h with h | h
      · rw [show containsSub noCouponsA [] = false from rfl] at h; exact absurd h (by simp)
      · rw [show containsSub noCouponsB [] = false from rfl] at h; exact absurd h (by simp)
    · rw [if_neg h0, if_pos (by rcases h with h | h <;> simp [h])]
  · intro text h
    unfold parse_claim_result at *
    by_cases h0 : text = []
    · simp [h0] at h
    · rw [if_neg h0] at h ⊢
      by_cases h1 : (containsSub noCouponsA text || containsSub noCouponsB text) = true
      · rw [if_pos h1]
        exact ⟨rfl, rfl, rfl⟩
      · rw [if_neg h1] at h
        exact absurd rfl h

theorem c4_no_coupons_shortcircuit_witness :
    parse_claim_result "暂无可领取的优惠券".data = ⟨0, 0, [], noCouponsMsg⟩ :=
  c4_no_coupons_shortcircuit.1 "暂无可领取的优惠券".data (Or.inr (by decide))

/-- Claim C6: on non-empty text without a "nothing available" phrase, the
result is: first integer after the success label (default 0), first
integer after the failed label (default 0), the first `success` bold
captures in order, and an empty message; with the concrete spec example
evaluated. -/
theorem c6_claim_extraction :
    (∀ text : List Char, text ≠ [] →
      containsSub noCouponsA text = false → containsSub noCouponsB text = false →
      parse_claim_result text =
        ⟨(searchLabelNum "成功".data text).getD 0,
         (searchLabelNum "失败".data text).getD 0,
         ((findBold text).take ((searchLabelNum "成功".data text).getD 0)).map String.mk,
         ""⟩) ∧
    parse_claim_result "成功：3 失败：1 **优惠A** **优惠B** **优惠C**".data =
      ⟨3, 1, ["优惠A", "优惠B", "优惠C"], ""⟩ := by
  constructor
  · intro text h0 h1 h2
    unfold parse_claim_result
    rw [if_neg h0, if_neg (by simp [h1, h2])]
    by_cases hb : findBold text = []
    · simp [hb]
    · simp [hb]
  · rfl

theorem c6_claim_extraction_witness :
    parse_claim_result "成功：3 失败：1 **优惠A** **优惠B** **优惠C**".data =
      ⟨(searchLabelNum "成功".data "成功：3 失败：1 **优惠A** **优惠B** **优惠C**".data).getD 0,
       (searchLabelNum "失败".data "成功：3 失败：1 **优惠A** **优惠B** **优惠C**".data).getD 0,
       ((findBold "成功：3 失败：1 **优惠A** **优惠B** **优惠C**".data).take
         ((searchLabelNum "成功".data "成功：3 失败：1 **优惠A** **优惠B** **优惠C**".data).getD 0)).map
         String.mk,
       ""⟩ :=
  c6_claim_extraction.1 "成功：3 失败：1 **优惠A** **优惠B** **优惠C**".data
    (by decide) (by decide) (by decide)

/-- Claim C10: the today lookup returns the first record (in sequence
order) whose `date` equals today's formatted date, and `none` exactly when
no record matches. -/
theorem c10_today_lookup : ∀ (today : String) (l : List DayActivities),
    (∀ da, get_today_activities today l = some da →
      da.date = today ∧
        ∃ l1 l2, l = l1 ++ da :: l2 ∧ ∀ e ∈ l1, e.date ≠ today) ∧
    (get_today_activities today l = none ↔ ∀ e ∈ l, e.date ≠ today) := by
  intro today l
  induction l with
  | nil =>
    refine ⟨fun da h => by simp [get_today_activities] at h, ?_⟩
    simp [get_today_activities]
  | cons d rest ih =>
    by_cases hd : d.date = today
    · refine ⟨fun da h => ?_, ?_⟩
      · rw [show get_today_activities today (d :: rest) = some d by
          simp [get_today_activities, hd]] at h
        have hda : d = da := by injection h
        subst hda
        exact ⟨hd, [], rest, rfl, by simp⟩
      · rw [show get_today_activities today (d :: rest) = some d by
          simp [get_today_activities, hd]]
        constructor
        · intro h; exact absurd h (by simp)
        · intro h; exact absurd hd (h d (by simp))
    · have hrec : get_today_activities today (d :: rest) =
          get_today_activities today rest := by
        simp [get_today_activities, hd]
      refine ⟨fun da h => ?_, ?_⟩
      · rw [hrec] at h
        obtain ⟨h1, l1, l2, h2, h3⟩ := ih.1 da h
        exact ⟨h1, d :: l1, l2, by rw [h2, List.cons_append], by
          intro e he
          rcases List.mem_cons.mp he with he | he
          · subst he; exact hd
          · exact h3 e he⟩
      · rw [hrec, ih.2]
        constructor
        · intro h e he
          rcases List.mem_cons.mp he with he | he
          · subst he; exact hd
          · exact h e he
        · intro h e he
          exact h e (List.mem_cons_of_mem d he)

theorem c10_today_lookup_witness :
    (⟨"2026-01-17", 1, []⟩ : DayActivities).date = "2026-01-17" :=
  ((c10_today_lookup "2026-01-17"
      [⟨"2026-01-17", 1, []⟩, ⟨"2026-01-17", 2, []⟩]).1
    ⟨"2026-01-17", 1, []⟩ rfl).1

theorem tripLt_same_ym (y m d d' : Nat) :
    tripLt (y, m, d) (y, m, d') = decide (d < d') := by
  simp [tripLt]

/-- Every day record emitted by the loop of `parse_calendar_activities`
carries a date formatted from the reference year, the reference month and
a valid day not before the reference day, has a non-empty activity list,
and a count equal to its length. -/
theorem procMatches_sound : ∀ (text : List Char) (ref : RefDate)
    (ms : List DateMatch) (l : List DayActivities),
    procMatches text ref ms = Except.ok l →
    ∀ da ∈ l, (∃ d : Nat, ref.day ≤ d ∧ dateOk ref.year ref.month d = true ∧
        da.date = fmtDate ref.year ref.month d) ∧
      da.activities ≠ [] ∧ da.count = da.activities.length := by
  intro text ref ms
  induction ms with
  | nil =>
    intro l h da hda
    unfold procMatches at h
    have hl : [] = l := by injection h
    subst hl
    simp at hda
  | cons m rest ih =>
    intro l h da hda
    unfold procMatches at h
    split at h
    · exact ih l h da hda
    · next hmy =>
      split at h
      · exact absurd h (by simp)
      · next hok =>
        split at h
        · exact ih l h da hda
        · next hlt =>
          split at h
          · exact absurd h (by simp)
          next tail heq =>
            push_neg at hmy
            obtain ⟨hmo, hyr⟩ := hmy
            split at h
            · injection h with h2
              subst h2
              exact ih tail heq da hda
            · next hne =>
              injection h with h2
              subst h2
              rcases List.mem_cons.mp hda with hda | hda
              · subst hda
                refine ⟨⟨m.dy, ?_, ?_, ?_⟩, hne, rfl⟩
                · rw [hmo, hyr] at hlt
                  rw [tripLt_same_ym] at hlt
                  simpa using hlt
                · rw [← hmo, ← hyr]
                  simpa using hok
                · rw [hmo, hyr]
              · exact ih tail heq da hda

/-- Claim C3: every emitted day has the reference month and year and a
valid day at or after the reference day; with the spec's concrete example
(reference 2026-01-17; the header for January 16 excluded, the one for
January 18 retained). -/
theorem c3_date_filter :
    (∀ (text : List Char) (ref : RefDate) (l : List DayActivities),
      parse_calendar_activities text ref = Except.ok l →
      ∀ da ∈ l, ∃ d : Nat, ref.day ≤ d ∧ dateOk ref.year ref.month d = true ∧
        da.date = fmtDate ref.year ref.month d) ∧
    parse_calendar_activities
        "#### 2026年1月16日\n- **活动标题**：活动甲\n#### 2026年1月18日\n- **活动标题**：活动乙\n".data
        ⟨2026, 1, 17⟩ =
      Except.ok [⟨"2026-01-18", 1, [⟨"- **活动标题**：活动乙", "", ""⟩]⟩] := by
  constructor
  · intro text ref l h da hda
    unfold parse_calendar_activities at h
    split at h
    · have hl : [] = l := by injection h
      subst hl
      simp at hda
    · exact (procMatches_sound text ref _ l h da hda).1
  · rfl

theorem c3_date_filter_witness :
    ∃ d : Nat, 17 ≤ d ∧ dateOk 2026 1 d = true ∧
      ("2026-01-18" : String) = fmtDate 2026 1 d :=
  c3_date_filter.1
    "#### 2026年1月16日\n- **活动标题**：活动甲\n#### 2026年1月18日\n- **活动标题**：活动乙\n".data
    ⟨2026, 1, 17⟩ [⟨"2026-01-18", 1, [⟨"- **活动标题**：活动乙", "", ""⟩]⟩] rfl
    ⟨"2026-01-18", 1, [⟨"- **活动标题**：活动乙", "", ""⟩]⟩ (by simp)

/-- Claim C5: every emitted `DayActivities` has a non-empty activity list
and `count` equal to its length. -/
theorem c5_day_invariant : ∀ (text : List Char) (ref : RefDate)
    (l : List DayActivities), parse_calendar_activities text ref = Except.ok l →
    ∀ da ∈ l, da.activities ≠ [] ∧ da.count = da.activities.length := by
  intro text ref l h da hda
  unfold parse_calendar_activities at h
  split at h
  · have hl : [] = l := by injection h
    subst hl
    simp at hda
  · exact (procMatches_sound text ref _ l h da hda).2

theorem c5_day_invariant_witness :
    ([⟨"- **活动标题**：活动乙", "", ""⟩] : List ActivityRecord) ≠ [] ∧
      (1 : Nat) = ([⟨"- **活动标题**：活动乙", "", ""⟩] : List ActivityRecord).length :=
  c5_day_invariant
    "#### 2026年1月16日\n- **活动标题**：活动甲\n#### 2026年1月18日\n- **活动标题**：活动乙\n".data
    ⟨2026, 1, 17⟩ [⟨"2026-01-18", 1, [⟨"- **活动标题**：活动乙", "", ""⟩]⟩] rfl
    ⟨"2026-01-18", 1, [⟨"- **活动标题**：活动乙", "", ""⟩]⟩ (by simp)

/-- Claim C7: missing fields of a coupon section default to price `"0"`,
validity `"未知"` and an empty image, a section without a heading match is
skipped entirely, and the spec's two-heading example evaluates to records
holding exactly those defaults. -/
theorem c7_coupon_defaults :
    (∀ sec r, parseSection sec = some r →
      (priceSearch sec = none → r.price = "0") ∧
      (validitySearch sec = none → r.validity = "未知") ∧
      (imgSearch sec = none → r.img = "")) ∧
    (∀ sec, h2Search sec = none → parseSection sec = none) ∧
    parse_my_coupons "## 优惠券A\n**有效期**：2月28日\n## 优惠券B\n**优惠**：¥5\n".data =
      [⟨"优惠券A", "0", "2月28日", ""⟩, ⟨"优惠券B", "5", "未知", ""⟩] := by
  refine ⟨?_, ?_, rfl⟩
  · intro sec r h
    unfold parseSection at h
    split at h
    · exact absurd h (by simp)
    · split at h
      · exact absurd h (by simp)
      · next cap hcap =>
        injection h with h2
        subst h2
        refine ⟨fun hp => ?_, fun hv => ?_, fun hi => ?_⟩
        · simp only [hp]
        · simp only [hv]
        · simp only [hi]
          rfl
  · intro sec h
    unfold parseSection
    split
    · rfl
    · rw [h]

theorem c7_coupon_defaults_witness :
    (⟨"优惠券A", "0", "2月28日", ""⟩ : CouponRecord).price = "0" :=
  ((c7_coupon_defaults.1 "## 优惠券A\n**有效期**：2月28日\n".data
      ⟨"优惠券A", "0", "2月28日", ""⟩ rfl).1) rfl

/-! ## Trimming lemmas (for the coupon-title invariant and `clean_text`) -/

theorem dropWhile_idem (p : Char → Bool) (l : List Char) :
    (l.dropWhile p).dropWhile p = l.dropWhile p := by
  induction l with
  | nil => simp
  | cons c rest ih =>
    rw [List.dropWhile_cons]
    by_cases h : p c
    · simpa [h] using ih
    · simp [List.dropWhile_cons, h]

theorem dropWhile_suffix_decomp (p : Char → Bool) (l : List Char) :
    ∃ t, l = t ++ l.dropWhile p := by
  induction l with
  | nil => exact ⟨[], rfl⟩
  | cons c rest ih =>
    rw [List.dropWhile_cons]
    by_cases h : p c
    · obtain ⟨t, ht⟩ := ih
      exact ⟨c :: t, by simpa [h] using congrArg (c :: ·) ht⟩
    · exact ⟨[], by simp [h]⟩

theorem stripR_prefix_decomp (l : List Char) : ∃ u, l = stripR l ++ u := by
  obtain ⟨t, ht⟩ := dropWhile_suffix_decomp isWsB l.reverse
  have h2 : l = (l.reverse.dropWhile isWsB).reverse ++ t.reverse := by
    have h3 := congrArg List.reverse ht
    rw [List.reverse_reverse, List.reverse_append] at h3
    exact h3
  exact ⟨t.reverse, h2⟩

theorem dropWhile_cons_self (p : Char → Bool) (c : Char) (x : List Char)
    (h : (c :: x).dropWhile p = c :: x) : p c = false := by
  by_cases hp : p c
  · rw [List.dropWhile_cons, if_pos hp] at h
    have := congrArg List.length h
    have hle := dropWhile_len_le p x
    simp only [List.length_cons] at this
    omega
  · simpa using hp

theorem stripL_stripR_self (z : List Char) (h : stripL z = z) :
    stripL (stripR z) = stripR z := by
  cases hz : stripR z with
  | nil => simp [stripL]
  | cons c w =>
    obtain ⟨u, hu⟩ := stripR_prefix_decomp z
    rw [hz] at hu
    have hc : isWsB c = false := by
      apply dropWhile_cons_self isWsB c (w ++ u)
      have : z = c :: (w ++ u) := by simpa using hu
      rw [← this]
      exact h
    simp [stripL, List.dropWhile_cons, hc]

theorem stripR_stripR (l : List Char) : stripR (stripR l) = stripR l := by
  unfold stripR
  rw [List.reverse_reverse, dropWhile_idem]

theorem strip_strip (cs : List Char) : strip (strip cs) = strip cs := by
  unfold strip
  have h1 : stripL (stripL cs) = stripL cs := dropWhile_idem isWsB cs
  rw [stripL_stripR_self (stripL cs) h1, stripR_stripR]

/-- Claim C8 counterexample: on `"## \nx"` the section's heading capture is
the single space, which strips to the empty string, so a `CouponRecord`
with an empty title is emitted. -/
theorem c8_nonempty_title_cex :
    (parse_my_coupons "## \nx".data).map CouponRecord.title = [""] := rfl

/-- Claim C8 (amended): every emitted coupon title is whitespace-trimmed
(no leading or trailing whitespace); it can be empty exactly when the
heading's captured text is all whitespace, as the counterexample shows. -/
theorem c8_title_trimmed : ∀ (text : List Char) (r : CouponRecord),
    r ∈ parse_my_coupons text → strip r.title.data = r.title.data := by
  intro text r hr
  unfold parse_my_coupons at hr
  split at hr
  · simp at hr
  · obtain ⟨sec, _, hsec⟩ := List.mem_filterMap.mp hr
    unfold parseSection at hsec
    split at hsec
    · exact absurd hsec (by simp)
    · split at hsec
      · exact absurd hsec (by simp)
      · next cap hcap =>
        injection hsec with h2
        subst h2
        show strip (String.mk (strip cap)).data = (String.mk (strip cap)).data
        exact strip_strip cap

theorem c8_title_trimmed_witness :
    strip ("" : String).data = ("" : String).data :=
  c8_title_trimmed "## \nx".data ⟨"", "0", "未知", ""⟩ (by decide)

/-! ## Idempotence of `clean_text` (claim C9)

The second application of each stage is a no-op on the output of the first
pipeline: the output contains no `\n` escape, no `\\` pair, no `\ ` escape
and no blank-line pattern, and it is already stripped. -/

theorem tryBlank_suffix : ∀ cs r, tryBlank cs = some r → ∃ t, cs = t ++ r := by
  intro cs
  induction cs with
  | nil => intro r h; simp [tryBlank] at h
  | cons c rest ih =>
    intro r h
    simp only [tryBlank] at h
    by_cases hw : isWsB c
    · rw [if_pos hw] at h
      cases htb : tryBlank rest with
      | some r2 =>
        rw [htb] at h
        have h2 : r2 = r := by injection h
        subst h2
        obtain ⟨t, ht⟩ := ih r2 htb
        exact ⟨c :: t, by rw [ht]; rfl⟩
      | none =>
        rw [htb] at h
        by_cases hn : c = '\n'
        · rw [if_pos hn] at h
          have h2 : rest = r := by injection h
          subst h2
          exact ⟨[c], rfl⟩
        · rw [if_neg hn] at h; exact absurd h (by simp)
    · rw [if_neg hw] at h; exact absurd h (by simp)

theorem subBlankGo_skip : ∀ (cs : List Char) (k : Nat),
    subBlankGo k cs = subBlankGo 0 (cs.drop k) := by
  intro cs
  induction cs with
  | nil => intro k; cases k <;> rfl
  | cons c rest ih =>
    intro k
    cases k with
    | zero => rfl
    | succ k =>
      show subBlankGo k rest = subBlankGo 0 ((c :: rest).drop (k + 1))
      rw [List.drop_succ_cons]
      exact ih k

theorem drop_suffix_eq (t r : List Char) :
    (t ++ r).drop ((t ++ r).length - r.length) = r := by
  have h : (t ++ r).length - r.length = t.length := by simp [List.length_append]
  rw [h, List.drop_left]

theorem subBlank_nil : subBlank [] = [] := rfl

theorem subBlank_cons_ne (c : Char) (rest : List Char) (h : c ≠ '\n') :
    subBlank (c :: rest) = c :: subBlank rest := by
  show subBlankGo 0 (c :: rest) = c :: subBlankGo 0 rest
  conv_lhs => unfold subBlankGo
  rw [if_neg h]

theorem subBlank_cons_none (rest : List Char) (h : tryBlank rest = none) :
    subBlank ('\n' :: rest) = '\n' :: subBlank rest := by
  show subBlankGo 0 ('\n' :: rest) = '\n' :: subBlankGo 0 rest
  conv_lhs => unfold subBlankGo
  rw [if_pos rfl, h]

theorem subBlank_cons_some (rest r : List Char) (h : tryBlank rest = some r) :
    subBlank ('\n' :: rest) = '\n' :: subBlank r := by
  show subBlankGo 0 ('\n' :: rest) = '\n' :: subBlankGo 0 r
  conv_lhs => unfold subBlankGo
  rw [if_pos rfl, h]
  show '\n' :: subBlankGo (rest.length - r.length) rest = '\n' :: subBlankGo 0 r
  rw [subBlankGo_skip]
  obtain ⟨t, ht⟩ := tryBlank_suffix rest r h
  rw [ht, drop_suffix_eq]

/-- `subBlank` keeps the head character. -/
theorem subBlank_cons_shape (c : Char) (rest : List Char) :
    ∃ t, subBlank (c :: rest) = c :: t := by
  by_cases h : c = '\n'
  · subst h
    cases htb : tryBlank rest with
    | some r => exact ⟨subBlank r, subBlank_cons_some rest r htb⟩
    | none => exact ⟨subBlank rest, subBlank_cons_none rest htb⟩
  · exact ⟨subBlank rest, subBlank_cons_ne c rest h⟩

theorem containsSub_tail {p : List Char} {c : Char} {cs : List Char}
    (h : containsSub p (c :: cs) = false) : containsSub p cs = false := by
  simp only [containsSub, Bool.or_eq_false_iff] at h
  exact h.2

theorem startsWithL_head_false {p : List Char} {c : Char} {cs : List Char}
    (h : containsSub p (c :: cs) = false) : startsWithL p (c :: cs) = false := by
  simp only [containsSub, Bool.or_eq_false_iff] at h
  exact h.1

theorem startsWithL_pair_first (b : Char) {a c : Char} (cs : List Char)
    (h : a ≠ c) : startsWithL [a, b] (c :: cs) = false := by
  simp [startsWithL, h]

theorem startsWithL_pair_second (a : Char) {b d : Char} (c : Char) (t : List Char)
    (h : b ≠ d) : startsWithL [a, b] (c :: d :: t) = false := by
  simp [startsWithL, h]

theorem startsWithL_pair_nil (a b c : Char) : startsWithL [a, b] [c] = false := by
  simp [startsWithL]

theorem repl1_fix : ∀ cs, containsSub ['\\', 'n'] cs = false → repl1 cs = cs := by
  intro cs
  induction cs using repl1.induct with
  | case1 => intro _; rfl
  | case2 c => intro _; rfl
  | case3 c d rest hcd ih =>
    intro h
    obtain ⟨hc, hd⟩ := hcd
    subst hc; subst hd
    simp [containsSub, startsWithL] at h
  | case4 c d rest hcd ih =>
    intro h
    simp only [repl1, if_neg hcd]
    rw [ih (containsSub_tail h)]

theorem repl1_cons_shape (d : Char) (rest : List Char) :
    (∃ t, repl1 (d :: rest) = d :: t) ∨ (∃ t, repl1 (d :: rest) = '\n' :: t) := by
  cases rest with
  | nil => exact Or.inl ⟨[], rfl⟩
  | cons e r =>
    by_cases h : d = '\\' ∧ e = 'n'
    · obtain ⟨hd, he⟩ := h
      subst hd; subst he
      exact Or.inr ⟨repl1 r, by simp [repl1]⟩
    · exact Or.inl ⟨repl1 (e :: r), by simp only [repl1, if_neg h]⟩

theorem repl1_no : ∀ cs, containsSub ['\\', 'n'] (repl1 cs) = false := by
  intro cs
  induction cs using repl1.induct with
  | case1 => rfl
  | case2 c => simp [repl1, containsSub, startsWithL]
  | case3 c d rest hcd ih =>
    obtain ⟨hc, hd⟩ := hcd
    subst hc; subst hd
    have heq : repl1 ('\\' :: 'n' :: rest) = '\n' :: repl1 rest := by simp [repl1]
    rw [heq]
    simp only [containsSub, Bool.or_eq_false_iff]
    exact ⟨startsWithL_pair_first 'n' _ (by decide), ih⟩
  | case4 c d rest hcd ih =>
    simp only [repl1, if_neg hcd]
    simp only [containsSub, Bool.or_eq_false_iff]
    refine ⟨?_, ih⟩
    by_cases hc : c = '\\'
    · subst hc
      have hd : d ≠ 'n' := fun hd => hcd ⟨rfl, hd⟩
      rcases repl1_cons_shape d rest with ⟨t, ht⟩ | ⟨t, ht⟩
      · rw [ht]
        exact startsWithL_pair_second '\\' _ t (fun he => hd he.symm)
      · rw [ht]
        exact startsWithL_pair_second '\\' _ t (by decide)
    · rcases repl1_cons_shape d rest with ⟨t, ht⟩ | ⟨t, ht⟩ <;> rw [ht]
      · exact startsWithL_pair_first 'n' _ (fun he => hc he.symm)
      · exact startsWithL_pair_first 'n' _ (fun he => hc he.symm)

theorem pair_second_ne {a b c d : Char} {t : List Char}
    (h : startsWithL [a, b] (c :: d :: t) = false) (hac : a = c) : b ≠ d := by
  subst hac
  intro hbd
  subst hbd
  simp [startsWithL] at h

theorem startsWithL_pair_tail_irrel (a b c d : Char) (t t' : List Char) :
    startsWithL [a, b] (c :: d :: t) = startsWithL [a, b] (c :: d :: t') := by
  simp [startsWithL]

theorem containsSub_append_right {p : List Char} : ∀ (t r : List Char),
    containsSub p (t ++ r) = false → containsSub p r = false := by
  intro t
  induction t with
  | nil => intro r h; exact h
  | cons c t2 ih => intro r h; exact ih r (containsSub_tail h)

theorem repl2_fix : ∀ cs, containsSub ['\\', '\\'] cs = false → repl2 cs = cs := by
  intro cs
  induction cs using repl2.induct with
  | case1 => intro _; rfl
  | case2 c => intro _; rfl
  | case3 c d rest hcd ih =>
    intro h
    obtain ⟨hc, hd⟩ := hcd
    subst hc; subst hd
    simp [containsSub, startsWithL] at h
  | case4 c d rest hcd ih =>
    intro h
    simp only [repl2, if_neg hcd]
    rw [ih (containsSub_tail h)]

theorem repl2_cons_shape {d : Char} (rest : List Char) (hd : d ≠ '\\') :
    ∃ t, repl2 (d :: rest) = d :: t := by
  cases rest with
  | nil => exact ⟨[], rfl⟩
  | cons e r =>
    have hne : ¬(d = '\\' ∧ e = '\\') := fun he => hd he.1
    exact ⟨repl2 (e :: r), by simp only [repl2, if_neg hne]⟩

theorem repl2_no_bb : ∀ cs, containsSub ['\\', '\\'] (repl2 cs) = false := by
  intro cs
  induction cs using repl2.induct with
  | case1 => rfl
  | case2 c => simp [repl2, containsSub, startsWithL]
  | case3 c d rest hcd ih =>
    obtain ⟨hc, hd⟩ := hcd
    subst hc; subst hd
    have heq : repl2 ('\\' :: '\\' :: rest) = repl2 rest := by simp [repl2]
    rw [heq]
    exact ih
  | case4 c d rest hcd ih =>
    simp only [repl2, if_neg hcd]
    simp only [containsSub, Bool.or_eq_false_iff]
    refine ⟨?_, ih⟩
    by_cases hc : c = '\\'
    · subst hc
      have hd : d ≠ '\\' := fun hd => hcd ⟨rfl, hd⟩
      obtain ⟨t, ht⟩ := repl2_cons_shape rest hd
      rw [ht]
      exact startsWithL_pair_second '\\' _ t (fun he => hd he.symm)
    · cases hr : repl2 (d :: rest) with
      | nil => exact startsWithL_pair_nil _ _ _
      | cons e t =>
        exact startsWithL_pair_first '\\' _ (fun he => hc he.symm)

theorem repl2_pres_bn : ∀ cs, containsSub ['\\', 'n'] cs = false →
    containsSub ['\\', 'n'] (repl2 cs) = false := by
  intro cs
  induction cs using repl2.induct with
  | case1 => intro _; rfl
  | case2 c => intro _; simp [repl2, containsSub, startsWithL]
  | case3 c d rest hcd ih =>
    intro h
    obtain ⟨hc, hd⟩ := hcd
    subst hc; subst hd
    have heq : repl2 ('\\' :: '\\' :: rest) = repl2 rest := by simp [repl2]
    rw [heq]
    exact ih (containsSub_tail (containsSub_tail h))
  | case4 c d rest hcd ih =>
    intro h
    simp only [repl2, if_neg hcd]
    simp only [containsSub, Bool.or_eq_false_iff]
    refine ⟨?_, ih (containsSub_tail h)⟩
    by_cases hc : c = '\\'
    · subst hc
      have hd2 : d ≠ '\\' := fun hd => hcd ⟨rfl, hd⟩
      have hdn : ('n' : Char) ≠ d :=
        pair_second_ne (startsWithL_head_false h) rfl
      obtain ⟨t, ht⟩ := repl2_cons_shape rest hd2
      rw [ht]
      exact startsWithL_pair_second '\\' _ t hdn
    · cases hr : repl2 (d :: rest) with
      | nil => exact startsWithL_pair_nil _ _ _
      | cons e t =>
        exact startsWithL_pair_first 'n' _ (fun he => hc he.symm)

theorem repl3_fix : ∀ cs, containsSub ['\\', ' '] cs = false → repl3 cs = cs := by
  intro cs
  induction cs using repl3.induct with
  | case1 => intro _; rfl
  | case2 c => intro _; rfl
  | case3 c d rest hcd ih =>
    intro h
    obtain ⟨hc, hd⟩ := hcd
    subst hc; subst hd
    simp [containsSub, startsWithL] at h
  | case4 c d rest hcd ih =>
    intro h
    simp only [repl3, if_neg hcd]
    rw [ih (containsSub_tail h)]

theorem repl3_cons_shape_ne {d : Char} (rest : List Char) (hd : d ≠ '\\') :
    ∃ t, repl3 (d :: rest) = d :: t := by
  cases rest with
  | nil => exact ⟨[], rfl⟩
  | cons e r =>
    have hne : ¬(d = '\\' ∧ e = ' ') := fun he => hd he.1
    exact ⟨repl3 (e :: r), by simp only [repl3, if_neg hne]⟩

theorem repl3_cons_shape_gen (d : Char) (rest : List Char) :
    ∃ t, repl3 (d :: rest) = d :: t ∨ repl3 (d :: rest) = ' ' :: t := by
  cases rest with
  | nil => exact ⟨[], Or.inl rfl⟩
  | cons e r =>
    by_cases hde : d = '\\' ∧ e = ' '
    · obtain ⟨hd, he⟩ := hde
      subst hd; subst he
      exact ⟨repl3 r, Or.inr (by simp [repl3])⟩
    · exact ⟨repl3 (e :: r), Or.inl (by simp only [repl3, if_neg hde])⟩

theorem repl3_no_bs : ∀ cs, containsSub ['\\', '\\'] cs = false →
    containsSub ['\\', ' '] (repl3 cs) = false := by
  intro cs
  induction cs using repl3.induct with
  | case1 => intro _; rfl
  | case2 c => intro _; simp [repl3, containsSub, startsWithL]
  | case3 c d rest hcd ih =>
    intro h2
    obtain ⟨hc, hd⟩ := hcd
    subst hc; subst hd
    have heq : repl3 ('\\' :: ' ' :: rest) = ' ' :: repl3 rest := by simp [repl3]
    rw [heq]
    simp only [containsSub, Bool.or_eq_false_iff]
    refine ⟨?_, ih (containsSub_tail (containsSub_tail h2))⟩
    cases hr : repl3 rest with
    | nil => exact startsWithL_pair_nil _ _ _
    | cons e t => exact startsWithL_pair_first ' ' _ (by decide)
  | case4 c d rest hcd ih =>
    intro h2
    simp only [repl3, if_neg hcd]
    simp only [containsSub, Bool.or_eq_false_iff]
    refine ⟨?_, ih (containsSub_tail h2)⟩
    by_cases hc : c = '\\'
    · subst hc
      have hd2 : d ≠ '\\' :=
        fun he => (pair_second_ne (startsWithL_head_false h2) rfl) he.symm
      have hds : (' ' : Char) ≠ d := fun he => hcd ⟨rfl, he.symm⟩
      obtain ⟨t, ht⟩ := repl3_cons_shape_ne rest hd2
      rw [ht]
      exact startsWithL_pair_second '\\' _ t hds
    · cases hr : repl3 (d :: rest) with
      | nil => exact startsWithL_pair_nil _ _ _
      | cons e t => exact startsWithL_pair_first ' ' _ (fun he => hc he.symm)

theorem repl3_pres_bn : ∀ cs, containsSub ['\\', 'n'] cs = false →
    containsSub ['\\', 'n'] (repl3 cs) = false := by
  intro cs
  induction cs using repl3.induct with
  | case1 => intro _; rfl
  | case2 c => intro _; simp [repl3, containsSub, startsWithL]
  | case3 c d rest hcd ih =>
    intro h
    obtain ⟨hc, hd⟩ := hcd
    subst hc; subst hd
    have heq : repl3 ('\\' :: ' ' :: rest) = ' ' :: repl3 rest := by simp [repl3]
    rw [heq]
    simp only [containsSub, Bool.or_eq_false_iff]
    refine ⟨?_, ih (containsSub_tail (containsSub_tail h))⟩
    cases hr : repl3 rest with
    | nil => exact startsWithL_pair_nil _ _ _
    | cons e t => exact startsWithL_pair_first 'n' _ (by decide)
  | case4 c d rest hcd ih =>
    intro h
    simp only [repl3, if_neg hcd]
    simp only [containsSub, Bool.or_eq_false_iff]
    refine ⟨?_, ih (containsSub_tail h)⟩
    by_cases hc : c = '\\'
    · subst hc
      have hdn : ('n' : Char) ≠ d :=
        pair_second_ne (startsWithL_head_false h) rfl
      obtain ⟨t, hsh⟩ := repl3_cons_shape_gen d rest
      rcases hsh with hsh | hsh <;> rw [hsh]
      · exact startsWithL_pair_second '\\' _ t hdn
      · exact startsWithL_pair_second '\\' _ t (by decide)
    · cases hr : repl3 (d :: rest) with
      | nil => exact startsWithL_pair_nil _ _ _
      | cons e t => exact startsWithL_pair_first 'n' _ (fun he => hc he.symm)

theorem repl3_pres_bb : ∀ cs, containsSub ['\\', '\\'] cs = false →
    containsSub ['\\', '\\'] (repl3 cs) = false := by
  intro cs
  induction cs using repl3.induct with
  | case1 => intro _; rfl
  | case2 c => intro _; simp [repl3, containsSub, startsWithL]
  | case3 c d rest hcd ih =>
    intro h2
    obtain ⟨hc, hd⟩ := hcd
    subst hc; subst hd
    have heq : repl3 ('\\' :: ' ' :: rest) = ' ' :: repl3 rest := by simp [repl3]
    rw [heq]
    simp only [containsSub, Bool.or_eq_false_iff]
    refine ⟨?_, ih (containsSub_tail (containsSub_tail h2))⟩
    cases hr : repl3 rest with
    | nil => exact startsWithL_pair_nil _ _ _
    | cons e t => exact startsWithL_pair_first '\\' _ (by decide)
  | case4 c d rest hcd ih =>
    intro h2
    simp only [repl3, if_neg hcd]
    simp only [containsSub, Bool.or_eq_false_iff]
    refine ⟨?_, ih (containsSub_tail h2)⟩
    by_cases hc : c = '\\'
    · subst hc
      have hd2 : d ≠ '\\' :=
        fun he => (pair_second_ne (startsWithL_head_false h2) rfl) he.symm
      obtain ⟨t, ht⟩ := repl3_cons_shape_ne rest hd2
      rw [ht]
      exact startsWithL_pair_second '\\' _ t (fun he => hd2 he.symm)
    · cases hr : repl3 (d :: rest) with
      | nil => exact startsWithL_pair_nil _ _ _
      | cons e t => exact startsWithL_pair_first '\\' _ (fun he => hc he.symm)

/-- Some position starts a `\n\s*\n` match. -/
def hasBlank : List Char → Bool
  | [] => false
  | c :: rest => ((c == '\n') && (tryBlank rest).isSome) || hasBlank rest

/-- The text starts with `\s*\n`. -/
def startsWsNl : List Char → Bool
  | [] => false
  | c :: rest => if c = '\n' then true else if isWsB c then startsWsNl rest else false

theorem tryBlank_isSome_eq : ∀ cs, (tryBlank cs).isSome = startsWsNl cs := by
  intro cs
  induction cs with
  | nil => rfl
  | cons c rest ih =>
    show (if isWsB c then
        (match tryBlank rest with
         | some r => some r
         | none => if c = '\n' then some rest else none)
        else none).isSome = startsWsNl (c :: rest)
    by_cases hn : c = '\n'
    · subst hn
      rw [if_pos (show isWsB '\n' = true by decide)]
      have h1 : startsWsNl ('\n' :: rest) = true := by simp [startsWsNl]
      rw [h1]
      cases htb : tryBlank rest with
      | some r => rfl
      | none => simp
    · by_cases hw : isWsB c
      · rw [if_pos hw]
        have h1 : startsWsNl (c :: rest) = startsWsNl rest := by
          simp [startsWsNl, hn, hw]
        rw [h1, ← ih]
        cases htb : tryBlank rest with
        | some r => rfl
        | none => simp [hn]
      · rw [if_neg hw]
        have h1 : startsWsNl (c :: rest) = false := by simp [startsWsNl, hn, hw]
        rw [h1]
        rfl

theorem tryBlank_none_startsWsNl {cs : List Char} (h : tryBlank cs = none) :
    startsWsNl cs = false := by
  have h2 := tryBlank_isSome_eq cs
  rw [h] at h2
  exact h2.symm

theorem startsWsNl_false_tryBlank {cs : List Char} (h : startsWsNl cs = false) :
    tryBlank cs = none := by
  have h2 := tryBlank_isSome_eq cs
  rw [h] at h2
  cases htb : tryBlank cs with
  | some r => rw [htb] at h2; exact absurd h2 (by simp)
  | none => rfl

theorem startsWsNl_subBlank : ∀ cs, startsWsNl cs = false →
    startsWsNl (subBlank cs) = false := by
  intro cs
  induction cs with
  | nil => intro _; rfl
  | cons c rest ih =>
    intro h
    by_cases hn : c = '\n'
    · subst hn; simp [startsWsNl] at h
    · by_cases hw : isWsB c
      · have h2 : startsWsNl rest = false := by
          simpa [startsWsNl, hn, hw] using h
        rw [subBlank_cons_ne c rest hn]
        simpa [startsWsNl, hn, hw] using ih h2
      · rw [subBlank_cons_ne c rest hn]
        simp [startsWsNl, hn, hw]

theorem tryBlank_some_startsWsNl : ∀ cs r, tryBlank cs = some r →
    startsWsNl r = false := by
  intro cs
  induction cs with
  | nil => intro r h; simp [tryBlank] at h
  | cons c rest ih =>
    intro r h
    simp only [tryBlank] at h
    by_cases hw : isWsB c
    · rw [if_pos hw] at h
      cases htb : tryBlank rest with
      | some r2 =>
        rw [htb] at h
        have h2 : r2 = r := by injection h
        subst h2
        exact ih r2 htb
      | none =>
        rw [htb] at h
        by_cases hn : c = '\n'
        · rw [if_pos hn] at h
          have h2 : rest = r := by injection h
          subst h2
          exact tryBlank_none_startsWsNl htb
        · rw [if_neg hn] at h; exact absurd h (by simp)
    · rw [if_neg hw] at h; exact absurd h (by simp)

theorem subBlank_pres_pair (a b : Char) (ha : a ≠ '\n') : ∀ (n : Nat) (cs : List Char),
    cs.length ≤ n → containsSub [a, b] cs = false →
    containsSub [a, b] (subBlank cs) = false := by
  intro n
  induction n with
  | zero =>
    intro cs hl h
    have h0 : cs = [] := List.eq_nil_of_length_eq_zero (Nat.le_zero.mp hl)
    subst h0
    exact h
  | succ n ih =>
    intro cs hl h
    cases cs with
    | nil => exact h
    | cons c rest =>
      have hlr : rest.length ≤ n := by
        simp only [List.length_cons] at hl; omega
      by_cases hn : c = '\n'
      · subst hn
        cases htb : tryBlank rest with
        | some r =>
          rw [subBlank_cons_some rest r htb]
          simp only [containsSub, Bool.or_eq_false_iff]
          constructor
          · exact startsWithL_pair_first b _ ha
          · obtain ⟨t, ht⟩ := tryBlank_suffix rest r htb
            have hr : containsSub [a, b] r = false := by
              apply containsSub_append_right t
              rw [← ht]
              exact containsSub_tail h
            have hrl : r.length ≤ n := by
              have h2 := congrArg List.length ht
              simp only [List.length_append] at h2
              omega
            exact ih r hrl hr
        | none =>
          rw [subBlank_cons_none rest htb]
          simp only [containsSub, Bool.or_eq_false_iff]
          exact ⟨startsWithL_pair_first b _ ha,
            ih rest hlr (containsSub_tail h)⟩
      · rw [subBlank_cons_ne c rest hn]
        simp only [containsSub, Bool.or_eq_false_iff]
        refine ⟨?_, ih rest hlr (containsSub_tail h)⟩
        cases hrest : rest with
        | nil => exact startsWithL_pair_nil a b c
        | cons d r2 =>
          obtain ⟨t, ht⟩ := subBlank_cons_shape d r2
          rw [ht, startsWithL_pair_tail_irrel a b c d t r2]
          rw [hrest] at h
          exact startsWithL_head_false h

theorem hasBlank_subBlank : ∀ (n : Nat) (cs : List Char), cs.length ≤ n →
    hasBlank (subBlank cs) = false := by
  intro n
  induction n with
  | zero =>
    intro cs hl
    have h0 : cs = [] := List.eq_nil_of_length_eq_zero (Nat.le_zero.mp hl)
    subst h0
    rfl
  | succ n ih =>
    intro cs hl
    cases cs with
    | nil => rfl
    | cons c rest =>
      have hlr : rest.length ≤ n := by
        simp only [List.length_cons] at hl; omega
      by_cases hn : c = '\n'
      · subst hn
        cases htb : tryBlank rest with
        | some r =>
          rw [subBlank_cons_some rest r htb]
          simp only [hasBlank, Bool.or_eq_false_iff]
          constructor
          · have h1 : startsWsNl (subBlank r) = false :=
              startsWsNl_subBlank r (tryBlank_some_startsWsNl rest r htb)
            rw [tryBlank_isSome_eq (subBlank r), h1]
            simp
          · obtain ⟨t, ht⟩ := tryBlank_suffix rest r htb
            have hrl : r.length ≤ n := by
              have h2 := congrArg List.length ht
              simp only [List.length_append] at h2
              omega
            exact ih r hrl
        | none =>
          rw [subBlank_cons_none rest htb]
          simp only [hasBlank, Bool.or_eq_false_iff]
          constructor
          · have h1 : startsWsNl (subBlank rest) = false :=
              startsWsNl_subBlank rest (tryBlank_none_startsWsNl htb)
            rw [tryBlank_isSome_eq (subBlank rest), h1]
            simp
          · exact ih rest hlr
      · rw [subBlank_cons_ne c rest hn]
        simp only [hasBlank, Bool.or_eq_false_iff]
        refine ⟨?_, ih rest hlr⟩
        have h1 : (c == '\n') = false := by simp [hn]
        rw [h1]
        simp

theorem subBlank_fix : ∀ (n : Nat) (cs : List Char), cs.length ≤ n →
    hasBlank cs = false → subBlank cs = cs := by
  intro n
  induction n with
  | zero =>
    intro cs hl _
    have h0 : cs = [] := List.eq_nil_of_length_eq_zero (Nat.le_zero.mp hl)
    subst h0
    rfl
  | succ n ih =>
    intro cs hl h
    cases cs with
    | nil => rfl
    | cons c rest =>
      have hlr : rest.length ≤ n := by
        simp only [List.length_cons] at hl; omega
      simp only [hasBlank, Bool.or_eq_false_iff] at h
      by_cases hn : c = '\n'
      · subst hn
        have h1 : (tryBlank rest).isSome = false := by
          have h2 := h.1
          simpa using h2
        have h3 : tryBlank rest = none := by
          cases htb : tryBlank rest with
          | some r => rw [htb] at h1; exact absurd h1 (by simp)
          | none => rfl
        rw [subBlank_cons_none rest h3, ih rest hlr h.2]
      · rw [subBlank_cons_ne c rest hn, ih rest hlr h.2]

theorem hasBlank_tail {c : Char} {cs : List Char}
    (h : hasBlank (c :: cs) = false) : hasBlank cs = false := by
  simp only [hasBlank, Bool.or_eq_false_iff] at h
  exact h.2

theorem hasBlank_append_right : ∀ (t r : List Char),
    hasBlank (t ++ r) = false → hasBlank r = false := by
  intro t
  induction t with
  | nil => intro r h; exact h
  | cons c t2 ih => intro r h; exact ih r (hasBlank_tail h)

theorem tryBlank_isSome_append : ∀ (t u : List Char), (tryBlank t).isSome = true →
    (tryBlank (t ++ u)).isSome = true := by
  intro t
  induction t with
  | nil => intro u h; simp [tryBlank] at h
  | cons c rest ih =>
    intro u h
    simp only [tryBlank] at h
    show (if isWsB c then
        (match tryBlank (rest ++ u) with
         | some r => some r
         | none => if c = '\n' then some (rest ++ u) else none)
        else none).isSome = true
    by_cases hw : isWsB c
    · rw [if_pos hw] at h ⊢
      cases htb : tryBlank rest with
      | some r =>
        have h2 := ih u (by rw [htb]; rfl)
        cases htb2 : tryBlank (rest ++ u) with
        | some r2 => rfl
        | none => rw [htb2] at h2; exact absurd h2 (by simp)
      | none =>
        rw [htb] at h
        by_cases hn : c = '\n'
        · cases htb2 : tryBlank (rest ++ u) with
          | some r2 => rfl
          | none => rw [if_pos hn]; rfl
        · rw [if_neg hn] at h; exact absurd h (by simp)
    · rw [if_neg hw] at h; exact absurd h (by simp)

theorem hasBlank_append_left : ∀ (m u : List Char), hasBlank m = true →
    hasBlank (m ++ u) = true := by
  intro m
  induction m with
  | nil => intro u h; simp [hasBlank] at h
  | cons c rest ih =>
    intro u h
    simp only [hasBlank, Bool.or_eq_true, Bool.and_eq_true] at h
    show (((c == '\n') && (tryBlank (rest ++ u)).isSome) || hasBlank (rest ++ u)) = true
    rcases h with ⟨h1, h2⟩ | h
    · rw [h1, tryBlank_isSome_append rest u h2]
      rfl
    · rw [ih u h]
      simp

theorem hasBlank_prefix {m u : List Char} (h : hasBlank (m ++ u) = false) :
    hasBlank m = false := by
  cases hm : hasBlank m with
  | false => rfl
  | true => rw [hasBlank_append_left m u hm] at h; exact absurd h (by simp)

theorem hasBlank_strip {z : List Char} (h : hasBlank z = false) :
    hasBlank (strip z) = false := by
  obtain ⟨t, ht⟩ := dropWhile_suffix_decomp isWsB z
  have ht2 : z = t ++ stripL z := ht
  have h1 : hasBlank (stripL z) = false := by
    apply hasBlank_append_right t
    rw [← ht2]
    exact h
  obtain ⟨u, hu⟩ := stripR_prefix_decomp (stripL z)
  exact hasBlank_prefix
    (show hasBlank (stripR (stripL z) ++ u) = false by rw [← hu]; exact h1)

theorem startsWithL_append_left : ∀ (p m u : List Char), startsWithL p m = true →
    startsWithL p (m ++ u) = true := by
  intro p
  induction p with
  | nil => intro m u _; rfl
  | cons a ps ih =>
    intro m u h
    cases m with
    | nil => simp [startsWithL] at h
    | cons c rest =>
      simp only [List.cons_append, startsWithL, Bool.and_eq_true] at h ⊢
      exact ⟨h.1, ih rest u h.2⟩

theorem containsSub_empty_true : ∀ u : List Char, containsSub [] u = true := by
  intro u
  cases u with
  | nil => rfl
  | cons c cs => simp [containsSub, startsWithL]

theorem containsSub_append_left : ∀ (p m u : List Char), containsSub p m = true →
    containsSub p (m ++ u) = true := by
  intro p m
  induction m with
  | nil =>
    intro u h
    have hp : p = [] := by
      cases p with
      | nil => rfl
      | cons a ps => simp [containsSub] at h
    subst hp
    exact containsSub_empty_true u
  | cons c rest ih =>
    intro u h
    simp only [containsSub, Bool.or_eq_true] at h
    show (startsWithL p (c :: (rest ++ u)) || containsSub p (rest ++ u)) = true
    rcases h with h | h
    · have h2 := startsWithL_append_left p (c :: rest) u h
      rw [List.cons_append] at h2
      rw [h2]
      rfl
    · rw [ih u h]
      simp

theorem containsSub_prefix {p m u : List Char}
    (h : containsSub p (m ++ u) = false) : containsSub p m = false := by
  cases hm : containsSub p m with
  | false => rfl
  | true => rw [containsSub_append_left p m u hm] at h; exact absurd h (by simp)

theorem containsSub_strip {p z : List Char} (h : containsSub p z = false) :
    containsSub p (strip z) = false := by
  obtain ⟨t, ht⟩ := dropWhile_suffix_decomp isWsB z
  have ht2 : z = t ++ stripL z := ht
  have h1 : containsSub p (stripL z) = false := by
    apply containsSub_append_right t
    rw [← ht2]
    exact h
  obtain ⟨u, hu⟩ := stripR_prefix_decomp (stripL z)
  exact containsSub_prefix
    (show containsSub p (stripR (stripL z) ++ u) = false by rw [← hu]; exact h1)

/-- Claim C9: `clean_text` is idempotent.  The output of the pipeline
contains no `\n` escape, no `\\` pair, no `\ ` escape and no blank-line
pattern, and is stripped, so every stage of a second pass is the
identity. -/
theorem c9_clean_text_idempotent : ∀ cs : List Char,
    clean_text (clean_text cs) = clean_text cs := by
  intro cs
  by_cases h0 : cs = []
  · subst h0; rfl
  · have hy : clean_text cs = strip (subBlank (repl3 (repl2 (repl1 cs)))) := by
      unfold clean_text
      rw [if_neg h0]
    have hbn : containsSub ['\\', 'n'] (clean_text cs) = false := by
      rw [hy]
      exact containsSub_strip (subBlank_pres_pair '\\' 'n' (by decide) _ _ le_rfl
        (repl3_pres_bn _ (repl2_pres_bn _ (repl1_no cs))))
    have hbb : containsSub ['\\', '\\'] (clean_text cs) = false := by
      rw [hy]
      exact containsSub_strip (subBlank_pres_pair '\\' '\\' (by decide) _ _ le_rfl
        (repl3_pres_bb _ (repl2_no_bb (repl1 cs))))
    have hbs : containsSub ['\\', ' '] (clean_text cs) = false := by
      rw [hy]
      exact containsSub_strip (subBlank_pres_pair '\\' ' ' (by decide) _ _ le_rfl
        (repl3_no_bs _ (repl2_no_bb (repl1 cs))))
    have hhb : hasBlank (clean_text cs) = false := by
      rw [hy]
      exact hasBlank_strip (hasBlank_subBlank _ _ le_rfl)
    by_cases hy0 : clean_text cs = []
    · rw [hy0]; rfl
    · generalize hgen : clean_text cs = y at hbn hbb hbs hhb hy0 hy ⊢
      show clean_text y = y
      unfold clean_text
      rw [if_neg hy0, repl1_fix _ hbn, repl2_fix _ hbb, repl3_fix _ hbs,
        subBlank_fix _ _ le_rfl hhb, hy]
      exact strip_strip _
